import Mathlib

/-!
Verification of the pystache render engine (src/pystache/renderengine.py) against its
natural-language specification. Templates are lists of characters; the scanning regex
tag_re is embedded as an explicit scanner with the same backtracking behaviour;
render-time state (the mutable context stack) is threaded through every function, and
Python exceptions are Except errors carrying the context state at the raise point.
-/

set_option maxRecDepth 4000

namespace Pystache

/-- Horizontal whitespace, the regex class of the whitespace capture group in tag_re. -/
def hws (c : Char) : Bool := c = ' ' || c = '\t'

/-- Python regex whitespace class on ASCII input. -/
def pyWs (c : Char) : Bool :=
  c = ' ' || c = '\t' || c = '\n' || c = '\r' || c = '\x0b' || c = '\x0c'

/-- END_OF_LINE_CHARACTERS from renderengine.py. -/
def isEOL (c : Char) : Bool := c = '\r' || c = '\n'

/-- Context values reaching the engine: None, bool, int, text, list (also standing for
tuple), dict, and callables. A callable keeps the fixed Python arity: lam0 takes zero
arguments, lam1 exactly one. renderengine.Template never inspects arity: it calls
val() at interpolation sites and data(template) at section sites, so a mismatched
arity raises TypeError. Numbers are modelled as integers. -/
inductive Value where
  | null
  | bool (b : Bool)
  | int (n : Int)
  | text (s : List Char)
  | list (xs : List Value)
  | map (entries : List (List Char × Value))
  | lam0 (f : Unit → Value)
  | lam1 (f : List Char → Value)

/-- Python truthiness of a context value. -/
def pyTruthy : Value → Bool
  | .null => false
  | .bool b => b
  | .int n => n != 0
  | .text s => !s.isEmpty
  | .list xs => !xs.isEmpty
  | .map es => !es.isEmpty
  | .lam0 _ => true
  | .lam1 _ => true

/-- Python equality with the integer 0, as in the test val != 0 of
_get_string_value: the number 0 and False (which equals 0 in Python) qualify. -/
def pyEqZero : Value → Bool
  | .int n => n == 0
  | .bool b => !b
  | _ => false

/-- Python callable(). -/
def isCallable : Value → Bool
  | .lam0 _ => true
  | .lam1 _ => true
  | _ => false

/-- comma separation used by Python list and dict formatting. -/
def commaSep : List (List Char) → List Char
  | [] => []
  | [x] => x
  | x :: y :: xs => x ++ ", ".data ++ commaSep (y :: xs)

/-- Python repr of a value, with a depth bound standing in for the interpreter
recursion limit. repr of text assumes the string has no quote, backslash or
unprintable characters; repr of a callable is a stand-in for the unpredictable
function object text and is never relied on in the theorems below. -/
def pyReprD : Nat → Value → List Char
  | _, .null => "None".data
  | _, .bool true => "True".data
  | _, .bool false => "False".data
  | _, .int n => (toString n).data
  | _, .text s => '\'' :: (s ++ ['\''])
  | _, .lam0 _ => "<function>".data
  | _, .lam1 _ => "<function>".data
  | 0, .list _ => []
  | d+1, .list xs => '[' :: (commaSep (xs.map (pyReprD d)) ++ [']'])
  | 0, .map _ => []
  | d+1, .map es =>
      '{' :: (commaSep (es.map (fun e => '\'' :: (e.1 ++ ('\'' :: (':' :: (' ' :: pyReprD d e.2))))))
        ++ ['}'])

/-- Python str coercion as the engine applies it: str of a string is itself, any
other value goes through repr-style formatting. -/
def pyStr : Value → List Char
  | .text s => s
  | v => pyReprD 1000 v

/-- Modelled from the spec: the Context class (pystache/context.py) is not under src/;
the context stack is an ordered sequence of scopes, scope 0 innermost. -/
abbrev Ctx := List Value

/-- Modelled from the spec: Context.push appends a new innermost scope. -/
def ctxPush (v : Value) (ctx : Ctx) : Ctx := v :: ctx

/-- Modelled from the spec: Context.pop removes the innermost scope. -/
def ctxPop (ctx : Ctx) : Ctx := ctx.tail

/-- Modelled from the spec: Context.top returns the innermost value. -/
def ctxTop : Ctx → Value
  | [] => .null
  | v :: _ => v

/-- first entry of a dict with the given key. -/
def mapFind (es : List (List Char × Value)) (k : List Char) : Option Value :=
  match es with
  | [] => none
  | e :: rest => if e.1 = k then some e.2 else mapFind rest k

/-- Python name.split on a dot. -/
def splitDot : List Char → List (List Char)
  | [] => [[]]
  | c :: cs =>
    match splitDot cs with
    | [] => [[]]
    | h :: rest => if c = '.' then [] :: h :: rest else (c :: h) :: rest

/-- navigation of the remaining dotted segments: map lookups only, anything else
yields Null. -/
def navDots : Value → List (List Char) → Value
  | v, [] => v
  | .map es, k :: rest =>
    (match mapFind es k with
     | some v2 => navDots v2 rest
     | none => Value.null)
  | _, _ :: _ => .null

/-- innermost-to-outermost scan for the first Map scope containing the head key. -/
def findScope : Ctx → List Char → Option Value
  | [], _ => none
  | .map es :: rest, k =>
    (match mapFind es k with
     | some v2 => some v2
     | none => findScope rest k)
  | _ :: rest, k => findScope rest k

/-- Modelled from the spec: Context lookup (the Context class is not under src/).
The name dot alone resolves to the innermost scope; otherwise the name splits on
dots, the head segment is resolved by scanning scopes innermost to outermost for
the first Map containing it, and the remaining segments navigate as map lookups;
an unresolved step yields Null. -/
def ctxGet (ctx : Ctx) (name : List Char) : Value :=
  if name = ['.'] then ctxTop ctx
  else
    match splitDot name with
    | [] => .null
    | h :: rest =>
      match findScope ctx h with
      | some v => navDots v rest
      | none => .null

/-- cgi.escape(text, True), the default escape of renderengine.Template: ampersand,
angle brackets and the double quote are replaced; single quotes are untouched. -/
def cgiEscapeChar (c : Char) : List Char :=
  if c = '&' then "&amp;".data
  else if c = '<' then "&lt;".data
  else if c = '>' then "&gt;".data
  else if c = '"' then "&quot;".data
  else [c]

/-- cgi.escape over a text. -/
def cgiEscape (s : List Char) : List Char := (s.map cgiEscapeChar).flatten

/-! ## The scanner

tag_re with delimiters O, C is (verbose mode, multiline):

  (content  any chars, lazy) (whitespace  space or tab, greedy) O ws
  ( =  ws (delims  one or more non-newline chars, lazy) ws =
  | lbrace ws (raw_name  one or more non-newline chars, lazy) ws rbrace
  | (tag  one optional char of ! > & / # ^) ws (name  one or more chars, lazy) )
  ws C

search(template, index) returns the leftmost match at or after index. Because
content is lazy and can absorb anything, the match is determined by the first
position q at or after index where the opening delimiter occurs and the rest of
the pattern matches; the whitespace capture is then the maximal horizontal
whitespace run ending at q (bounded below by index), since delimiters produced by
split() contain no whitespace characters. The functions below realise the
backtracking of each quantifier explicitly. -/

/-- true when pat occurs in t starting at position i. -/
def occursAt (pat t : List Char) (i : Nat) : Bool := pat.isPrefixOf (t.drop i)

/-- character of t at position i. -/
def charAt (t : List Char) (i : Nat) : Option Char := t.get? i

/-- length of the maximal run of regex whitespace at the head of a list. -/
def wsRunLen : List Char → Nat
  | [] => 0
  | c :: cs => if pyWs c then wsRunLen cs + 1 else 0

/-- position after the maximal run of regex whitespace starting at i (greedy ws). -/
def skipWs (t : List Char) (i : Nat) : Nat := i + wsRunLen (t.drop i)

/-- length of the maximal run of horizontal whitespace at the head of a list. -/
def hwsPrefLen : List Char → Nat
  | [] => 0
  | c :: cs => if hws c then hwsPrefLen cs + 1 else 0

/-- length of the maximal run of horizontal whitespace at the end of a list. -/
def hwsSuffixLen (l : List Char) : Nat := hwsPrefLen l.reverse

/-- slice t i j is the text of positions i up to (excluding) j. -/
def slice (t : List Char) (i j : Nat) : List Char := (t.take j).drop i

/-- greedy backtracking over a ws quantifier: try hi, hi-1, ..., hi-k in order. -/
def downTry {A : Type} (f : Nat → Option A) : Nat → Nat → Option A
  | hi, 0 => f hi
  | hi, k+1 =>
    match f hi with
    | some r => some r
    | none => downTry f (hi - 1) k

/-- check for a lazy dot-capture candidate end p: whitespace, the target character,
whitespace, then the closing delimiter must follow (both ws runs are forced because
the target and the delimiter head are non-whitespace). -/
def dotCheck (target : Char) (ctag t : List Char) (p : Nat) : Option Nat :=
  let p1 := skipWs t p
  if charAt t p1 = some target then
    let p2 := skipWs t (p1 + 1)
    if occursAt ctag t p2 then some (p2 + ctag.length) else none
  else none

/-- lazy extension of a dot-capture: candidate ends p, p+1, ... while each added
character is not a newline; rem must be t.drop p. Returns (capture end, match end). -/
def dotGo (target : Char) (ctag t : List Char) : Nat → List Char → Option (Nat × Nat)
  | p, rem =>
    match dotCheck target ctag t p with
    | some e => some (p, e)
    | none =>
      match rem with
      | [] => none
      | c :: rs => if c = '\n' then none else dotGo target ctag t (p+1) rs

/-- the delims/raw_name capture (one or more non-newline chars, lazy) starting at s2,
followed by ws, the target character, ws, and the closing delimiter. -/
def lazyDotScan (target : Char) (ctag t : List Char) (s2 : Nat) : Option (Nat × Nat) :=
  match charAt t s2 with
  | some c => if c = '\n' then none else dotGo target ctag t (s2+1) (t.drop (s2+1))
  | none => none

/-- check for a lazy name candidate end p: whitespace then the closing delimiter
must follow (the ws run is forced because the delimiter head is non-whitespace). -/
def nameCheck (ctag t : List Char) (p : Nat) : Option Nat :=
  let p2 := skipWs t p
  if occursAt ctag t p2 then some (p2 + ctag.length) else none

/-- lazy extension of the name capture (any chars): candidate ends p, p+1, ...;
rem must be t.drop p. Returns (name end, match end). -/
def nameGo (ctag t : List Char) : Nat → List Char → Option (Nat × Nat)
  | p, rem =>
    match nameCheck ctag t p with
    | some e => some (p, e)
    | none =>
      match rem with
      | [] => none
      | _ :: rs => nameGo ctag t (p+1) rs

/-- the name capture (one or more chars of anything, lazy) starting at s2, followed
by ws and the closing delimiter. -/
def nameScan (ctag t : List Char) (s2 : Nat) : Option (Nat × Nat) :=
  if s2 < t.length then nameGo ctag t (s2+1) (t.drop (s2+1)) else none

/-- the inner ws before the name, greedy with backtracking, then the name capture.
Returns (name start, name end, match end). -/
def innerName (ctag t : List Char) (s1 : Nat) : Option (Nat × Nat × Nat) :=
  downTry (fun s2 => (nameScan ctag t s2).map (fun r => (s2, r.1, r.2)))
    (skipWs t s1) (skipWs t s1 - s1)

/-- the sigil characters of the third alternative of tag_re in renderengine.py. -/
def sigils : List Char := ['!', '>', '&', '/', '#', '^']

/-- the plain-tag alternative at s: one optional sigil (greedy, so tried first),
then ws, then the name capture. Returns (tag capture, name start, name end, end). -/
def tagAlt (ctag t : List Char) (s : Nat) : Option (List Char × Nat × Nat × Nat) :=
  match charAt t s with
  | some c =>
    if sigils.contains c then
      match innerName ctag t (s+1) with
      | some r => some ([c], r.1, r.2.1, r.2.2)
      | none => (innerName ctag t s).map (fun r => ([], r.1, r.2.1, r.2.2))
    else (innerName ctag t s).map (fun r => ([], r.1, r.2.1, r.2.2))
  | none => none

/-- the three alternatives at post-ws position s, in the order of tag_re, with the
capture normalisation from the head of _handle_match folded in (a delimiter change
gets tag =, a triple brace gets tag lbrace, and name is the respective capture).
Returns (normalised tag, name, match end). -/
def tryAlts (ctag t : List Char) (s : Nat) : Option (List Char × List Char × Nat) :=
  let changeRes :=
    match charAt t s with
    | some c =>
      if c = '=' then
        (downTry (fun s2 => (lazyDotScan '=' ctag t s2).map (fun (r : Nat × Nat) => (s2, r.1, r.2)))
            (skipWs t (s+1)) (skipWs t (s+1) - (s+1))).map
          (fun (r : Nat × Nat × Nat) => (['='], slice t r.1 r.2.1, r.2.2))
      else none
    | none => none
  match changeRes with
  | some r => some r
  | none =>
    let rawRes :=
      match charAt t s with
      | some c =>
        if c = '{' then
          (downTry (fun s2 => (lazyDotScan '}' ctag t s2).map (fun (r : Nat × Nat) => (s2, r.1, r.2)))
              (skipWs t (s+1)) (skipWs t (s+1) - (s+1))).map
            (fun (r : Nat × Nat × Nat) => (['{'], slice t r.1 r.2.1, r.2.2))
        else none
      | none => none
    match rawRes with
    | some r => some r
    | none =>
      (tagAlt ctag t s).map
        (fun (r : List Char × Nat × Nat × Nat) => (r.1, slice t r.2.1 r.2.2.1, r.2.2.2))

/-- the tag body after the opening delimiter ending at s0: outer ws (greedy with
backtracking), then the alternation, each alternative ending in ws and the closing
delimiter. -/
def bodyMatch (ctag t : List Char) (s0 : Nat) : Option (List Char × List Char × Nat) :=
  downTry (tryAlts ctag t) (skipWs t s0) (skipWs t s0 - s0)

/-- one scan attempt: the pattern matches with its opening delimiter at q when
the delimiter occurs there and the tag body matches after it. -/
def scanHit (otag ctag t : List Char) (q : Nat) : Option (Nat × List Char × List Char × Nat) :=
  match (if occursAt otag t q then bodyMatch ctag t (q + otag.length) else none) with
  | some r => some (q, r.1, r.2.1, r.2.2)
  | none => none

/-- scan for the first opening-delimiter position q at or after the current index
whose tag body matches; rem must be t.drop q. -/
def scanQ (otag ctag t : List Char) : Nat → List Char → Option (Nat × List Char × List Char × Nat)
  | q, [] => scanHit otag ctag t q
  | q, _ :: rs =>
    match scanHit otag ctag t q with
    | some r => some r
    | none => scanQ otag ctag t (q+1) rs

/-- one match of tag_re: the group captures and positions _handle_match reads. -/
structure TagMatch where
  content : List Char
  ws : List Char
  tag : List Char
  name : List Char
  matchIndex : Nat
  endIndex : Nat
deriving DecidableEq, Repr

/-- the match record for a scan hit at r.1: the whitespace capture is the
maximal horizontal-whitespace run ending at the delimiter, bounded by the scan
index. -/
def mkMatch (t : List Char) (index : Nat) (r : Nat × List Char × List Char × Nat) : TagMatch :=
  let q := r.1
  let k := hwsSuffixLen (slice t index q)
  { content := slice t index (q - k), ws := slice t (q - k) q,
    tag := r.2.1, name := r.2.2.1, matchIndex := q - k, endIndex := r.2.2.2 }

/-- tag_re.search(template, index): the leftmost match at or after index, per the
derivation in the section comment above. matchIndex is match.end of the content
group and endIndex is match.end of the whole match. -/
def findTag (otag ctag t : List Char) (index : Nat) : Option TagMatch :=
  (scanQ otag ctag t index (t.drop index)).map (mkMatch t index)

/-! ## The parse tree and the parse loop -/

/-- parse tree nodes. The source appends plain strings and tag closures to one list;
this inductive has text for the strings and one constructor per closure builder:
escape_tag_function, literal_tag_function, partial_tag_function,
section_tag_function and inverseTag, each holding exactly the data its closure
captures (sect stands for the keyword-colliding section). -/
inductive Segment where
  | text (s : List Char)
  | escape (name : List Char)
  | literal (name : List Char)
  | part (name : List Char) (indent : List Char)
  | sect (name : List Char) (tree : List Segment) (raw : List Char)
      (delims : List Char × List Char)
  | inverse (name : List Char) (tree : List Segment) (raw : List Char)
      (delims : List Char × List Char)

/-- a tag is interpolating when its (normalised) tag capture is empty, ampersand
or left brace. -/
def isInterpolating (tag : List Char) : Bool := tag = [] || tag = ['&'] || tag = ['{']

/-- did_tag_begin_line: the content group ends at the start of the template or
right after an end-of-line character. -/
def didBeginLine (t : List Char) (m : TagMatch) : Bool :=
  m.matchIndex == 0 ||
    (match charAt t (m.matchIndex - 1) with
     | some c => isEOL c
     | none => false)

/-- did_tag_end_line: the match ends at the end of the template or immediately
before an end-of-line character. -/
def didEndLine (t : List Char) (m : TagMatch) : Bool :=
  m.endIndex == t.length ||
    (match charAt t m.endIndex with
     | some c => isEOL c
     | none => false)

/-- the standalone block of _handle_match: a standalone (non-interpolating,
line-delimited) tag advances end_index over one carriage return and then one
newline; otherwise a nonempty whitespace capture is moved into match_index and
zeroed (the caller appends it to the tree). Returns the adjusted match and
whether the standalone branch was taken. -/
def stripAdjust (t : List Char) (m : TagMatch) : TagMatch × Bool :=
  if didBeginLine t m && didEndLine t m && !isInterpolating m.tag then
    let e1 := if charAt t m.endIndex = some '\r' then m.endIndex + 1 else m.endIndex
    let e2 := if charAt t e1 = some '\n' then e1 + 1 else e1
    ({ m with endIndex := e2 }, true)
  else if m.ws = [] then (m, false)
  else ({ m with matchIndex := m.matchIndex + m.ws.length, ws := [] }, false)

/-- the text segments one match contributes: the content, and then the whitespace
capture when the standalone branch did not consume it. -/
def stepAppends (t : List Char) (m : TagMatch) : List Segment :=
  Segment.text m.content ::
    (if (stripAdjust t m).2 = false && decide (m.ws ≠ []) then [Segment.text m.ws] else [])

/-- Python str.split() with no argument: split on whitespace runs, no empty words. -/
def splitAux : List Char → List Char → List (List Char)
  | [], cur => if cur = [] then [] else [cur.reverse]
  | c :: cs, cur =>
    if pyWs c then
      (if cur = [] then splitAux cs [] else cur.reverse :: splitAux cs [])
    else splitAux cs (c :: cur)

/-- Python name.split() used by the delimiter-change branch. -/
def splitPyWs (s : List Char) : List (List Char) := splitAux s []

/-- the current open and close delimiters (the mutable otag/ctag of Template). -/
abbrev Delims := List Char × List Char

/-- parse failures: an EndOfSection escaping to the top, the unbound locals bufr/tmpl
when a section body parse ends without a close tag, the unpacking ValueError when a
delimiter change does not split into two words, the unreachable unknown-sigil raise,
and fuel exhaustion (never hit for the fuel parseString supplies). -/
inductive PErr where
  | endOfSection
  | unboundLocal
  | valueError
  | unrecognized
  | fuel
deriving DecidableEq

/-- outcome of one parse_to_tree invocation: a normal return (with the mutated
delimiters), an EndOfSection raise carrying the collected tree, the body text
template[start_index:match_index] and the resume position, or an error. -/
inductive POut where
  | done (tree : List Segment) (st : Delims)
  | eos (tree : List Segment) (body : List Char) (pos : Nat) (st : Delims)
  | perr (e : PErr)

/-- the scanning loop of parse_to_tree fused with _handle_match. st is the mutable
delimiter pair, start the start_index of this invocation, acc the parse tree so
far, index the scan position. The section branch recurses with a fresh tree and
start_index = end_index, keeps the delimiters the recursion left behind (they are
also what the section node stores), and resumes at the EndOfSection position; a
recursion that returns normally means the template ended first, leaving bufr and
tmpl unbound. -/
def parseLoop : Nat → Delims → Nat → List Segment → List Char → Nat → POut
  | 0, _, _, _, _, _ => .perr .fuel
  | pfuel+1, st, start, acc, t, index =>
    match findTag st.1 st.2 t index with
    | none => .done (acc ++ [.text (t.drop index)]) st
    | some m0 =>
      let m := (stripAdjust t m0).1
      let acc1 := acc ++ stepAppends t m0
      if m.tag = ['!'] then parseLoop pfuel st start acc1 t m.endIndex
      else if m.tag = ['='] then
        match splitPyWs m.name with
        | [o, c] => parseLoop pfuel (o, c) start acc1 t m.endIndex
        | _ => .perr .valueError
      else if m.tag = ['>'] then
        parseLoop pfuel st start (acc1 ++ [.part m.name m.ws]) t m.endIndex
      else if m.tag = ['#'] || m.tag = ['^'] then
        match parseLoop pfuel st m.endIndex [] t m.endIndex with
        | .eos bufr tmpl pos st2 =>
          let node := if m.tag = ['#'] then Segment.sect m.name bufr tmpl st2
                      else Segment.inverse m.name bufr tmpl st2
          parseLoop pfuel st2 start (acc1 ++ [node]) t pos
        | .done _ _ => .perr .unboundLocal
        | .perr e => .perr e
      else if m.tag = ['/'] then
        .eos acc1 (slice t start m.matchIndex) m.endIndex st
      else if m.tag = ['{'] || m.tag = ['&'] then
        parseLoop pfuel st start (acc1 ++ [.literal m.name]) t m.endIndex
      else if m.tag = [] then
        parseLoop pfuel st start (acc1 ++ [.escape m.name]) t m.endIndex
      else .perr .unrecognized

/-- the default delimiters. -/
def defaultDelims : Delims := (['{', '{'], ['}', '}'])

/-- parse_string_to_tree: a fresh Template with the given delimiters parses the
text from position 0. At this boundary an escaping EndOfSection (a close tag with
no open section) and the unbound-local crash of an unclosed section are the ways
parsing fails. -/
def parseString (t : List Char) (delims : Delims) : Except PErr (List Segment) :=
  match parseLoop (2 * t.length + 4) delims 0 [] t 0 with
  | .done tree _ => .ok tree
  | .eos _ _ _ _ => .error .endOfSection
  | .perr e => .error e

/-! ## The render engine

render_parse_tree walks the tree left to right joining the pieces; every tag
closure takes the context and may mutate it; a Python exception propagates out
leaving the context as it was at the raise point. Rendering is modelled as one
fuel-indexed function over explicit call kinds, with the context threaded through
and errors carrying the context state. -/

/-- render-time errors: a parse failure inside a lambda re-parse, a TypeError
(wrong lambda arity at a call site, a non-text section-lambda return handed to
the regex, or the None partial template of the default get_partial), and the
recursion limit (the fuel). -/
inductive RErr where
  | parse (e : PErr)
  | typeError
  | recursion
deriving DecidableEq

/-- result of a render step: the produced text or the escaped exception, together
with the context stack state afterwards. -/
abbrev RRes := Except RErr (List Char) × Ctx

/-- the call kinds of the engine: render_parse_tree on a tree, one tag closure,
_get_string_value, and render_template. -/
inductive RCall where
  | tree (tr : List Segment)
  | seg (s : Segment)
  | gsv (name : List Char)
  | tmpl (t : List Char) (delims : Delims)

/-- render_parse_tree: join the pieces left to right, stopping at the first
escaping exception. rs renders one segment. -/
def foldTree (rs : Segment → Ctx → RRes) : List Segment → Ctx → RRes
  | [], ctx => (.ok [], ctx)
  | s :: rest, ctx =>
    match rs s ctx with
    | (.ok out, ctx1) =>
      (match foldTree rs rest ctx1 with
       | (.ok out2, ctx2) => (.ok (out ++ out2), ctx2)
       | (.error e, ctx2) => (.error e, ctx2))
    | (.error e, ctx1) => (.error e, ctx1)

/-- the iteration loop of section_tag_function: for each element push it, render
the body, pop. The pop is not protected: an exception from the body render
escapes with the pushed scope still on the stack. rt renders the body tree. -/
def sectionLoop (rt : List Segment → Ctx → RRes) (tree : List Segment) :
    List Value → Ctx → RRes
  | [], ctx => (.ok [], ctx)
  | v :: vs, ctx =>
    match rt tree (ctxPush v ctx) with
    | (.ok out, ctx2) =>
      (match sectionLoop rt tree vs (ctxPop ctx2) with
       | (.ok out2, ctx3) => (.ok (out ++ out2), ctx3)
       | (.error e, ctx3) => (.error e, ctx3))
    | (.error e, ctx2) => (.error e, ctx2)

/-- the coercion _get_string_value applies to the return of a zero-argument lambda
before re-parsing: a string passes through, anything else goes through str(). -/
def coerceText (v : Value) : List Char :=
  match v with
  | .text s => s
  | v2 => pyStr v2

/-- the render engine. Case tree is render_parse_tree; case seg is the closure of
one parse-tree node; case gsv is _get_string_value; case tmpl is render_template.
Fuel models the interpreter recursion limit and drops by one per nesting level. -/
def renderF : Nat → RCall → Ctx → RRes
  | 0, _, ctx => (.error .recursion, ctx)
  | fuel+1, c, ctx =>
    match c with
    | .tree tr => foldTree (fun s cx => renderF fuel (.seg s) cx) tr ctx
    | .seg s =>
      match s with
      | .text txt => (.ok txt, ctx)
      | .escape name =>
        (match renderF fuel (.gsv name) ctx with
         | (.ok out, ctx1) => (.ok (cgiEscape out), ctx1)
         | r => r)
      | .literal name => renderF fuel (.gsv name) ctx
      | .part _ _ => (.error .typeError, ctx)
      | .sect name tree raw delims =>
        let data := ctxGet ctx name
        if pyTruthy data = false then
          sectionLoop (fun tr cx => renderF fuel (.tree tr) cx) tree [] ctx
        else
          (match data with
           | .lam1 f =>
             (match f raw with
              | .text t2 =>
                (match parseString t2 delims with
                 | .ok tree2 =>
                   sectionLoop (fun tr cx => renderF fuel (.tree tr) cx) tree2 [.lam1 f] ctx
                 | .error e => (.error (.parse e), ctx))
              | _ => (.error .typeError, ctx))
           | .lam0 _ => (.error .typeError, ctx)
           | .list xs => sectionLoop (fun tr cx => renderF fuel (.tree tr) cx) tree xs ctx
           | v => sectionLoop (fun tr cx => renderF fuel (.tree tr) cx) tree [v] ctx)
      | .inverse name tree _ _ =>
        if pyTruthy (ctxGet ctx name) then (.ok [], ctx)
        else renderF fuel (.tree tree) ctx
    | .gsv name =>
      let v0 := ctxGet ctx name
      if pyTruthy v0 = false && pyEqZero v0 = false && decide (name ≠ ['.']) then
        (.ok [], ctx)
      else
        let v1 := if pyTruthy v0 = false && pyEqZero v0 = false then ctxTop ctx else v0
        match v1 with
        | .lam0 f => renderF fuel (.tmpl (coerceText (f ())) defaultDelims) ctx
        | .lam1 _ => (.error .typeError, ctx)
        | v => (.ok (pyStr v), ctx)
    | .tmpl t delims =>
      match parseString t delims with
      | .ok tree => renderF fuel (.tree tree) ctx
      | .error e => (.error (.parse e), ctx)

/-- render_parse_tree at a given fuel. -/
def renderTree (fuel : Nat) (tr : List Segment) (ctx : Ctx) : RRes :=
  renderF fuel (.tree tr) ctx

/-- the closure of one parse-tree node at a given fuel. -/
def renderSeg (fuel : Nat) (s : Segment) (ctx : Ctx) : RRes :=
  renderF fuel (.seg s) ctx

/-- _get_string_value at a given fuel. -/
def getStringValue (fuel : Nat) (name : List Char) (ctx : Ctx) : RRes :=
  renderF fuel (.gsv name) ctx

/-- render_template at a given fuel: parse with the given delimiters, then render. -/
def renderTemplate (fuel : Nat) (t : List Char) (delims : Delims) (ctx : Ctx) : RRes :=
  renderF fuel (.tmpl t delims) ctx

/-! ## Context preservation on successful renders -/

/-- a fold over the tree restores the context whenever it succeeds, provided each
segment render does. -/
theorem foldTree_preserve (rs : Segment → Ctx → RRes)
    (h : ∀ s cx out cx2, rs s cx = (.ok out, cx2) → cx2 = cx) :
    ∀ tr ctx out ctx2, foldTree rs tr ctx = (.ok out, ctx2) → ctx2 = ctx := by
  intro tr
  induction tr with
  | nil =>
    intro ctx out ctx2 hft
    simp only [foldTree, Prod.mk.injEq] at hft
    exact hft.2.symm
  | cons s rest ih =>
    intro ctx out ctx2 hft
    unfold foldTree at hft
    split at hft
    · next o1 cx1 heq =>
        split at hft
        · next o2 cx2b heq2 =>
            simp only [Prod.mk.injEq, Except.ok.injEq] at hft
            rw [← hft.2, ih cx1 o2 cx2b heq2, h s ctx o1 cx1 heq]
        · next e cx2b heq2 =>
            simp only [Prod.mk.injEq] at hft
            exact absurd hft.1 (by simp)
    · next e cx1 heq =>
        simp only [Prod.mk.injEq] at hft
        exact absurd hft.1 (by simp)

/-- the section iteration restores the context whenever it succeeds, provided the
body render does. -/
theorem sectionLoop_preserve (rt : List Segment → Ctx → RRes)
    (h : ∀ tr cx out cx2, rt tr cx = (.ok out, cx2) → cx2 = cx) (tree : List Segment) :
    ∀ data ctx out ctx2, sectionLoop rt tree data ctx = (.ok out, ctx2) → ctx2 = ctx := by
  intro data
  induction data with
  | nil =>
    intro ctx out ctx2 hl
    simp only [sectionLoop, Prod.mk.injEq] at hl
    exact hl.2.symm
  | cons v vs ih =>
    intro ctx out ctx2 hl
    unfold sectionLoop at hl
    split at hl
    · next o1 cx1 heq =>
        split at hl
        · next o2 cx2b heq2 =>
            simp only [Prod.mk.injEq, Except.ok.injEq] at hl
            have hpop : ctxPop cx1 = ctx := by
              rw [h tree (ctxPush v ctx) o1 cx1 heq]
              rfl
            rw [← hl.2, ih (ctxPop cx1) o2 cx2b heq2, hpop]
        · next e cx2b heq2 =>
            simp only [Prod.mk.injEq] at hl
            exact absurd hl.1 (by simp)
    · next e cx1 heq =>
        simp only [Prod.mk.injEq] at hl
        exact absurd hl.1 (by simp)

/-- scope pushes and pops are paired on every successful exit of the engine: a
render call that returns normally leaves the context stack exactly as it found
it, whatever the call kind. -/
theorem renderF_preserve :
    ∀ fuel c ctx out ctx2, renderF fuel c ctx = (.ok out, ctx2) → ctx2 = ctx := by
  intro fuel
  induction fuel with
  | zero => intro c ctx out ctx2 h; simp [renderF] at h
  | succ n ih =>
    have hseg : ∀ s cx out cx2, (fun s cx => renderF n (.seg s) cx) s cx = (.ok out, cx2) →
        cx2 = cx := fun s cx out cx2 hh => ih _ cx out cx2 hh
    have htree : ∀ tr cx out cx2, (fun tr cx => renderF n (.tree tr) cx) tr cx = (.ok out, cx2) →
        cx2 = cx := fun tr cx out cx2 hh => ih _ cx out cx2 hh
    intro c ctx out ctx2 h
    cases c with
    | tree tr =>
      exact foldTree_preserve _ hseg tr ctx out ctx2 (by simpa only [renderF] using h)
    | seg s =>
      cases s with
      | text txt =>
        simp only [renderF, Prod.mk.injEq] at h
        exact h.2.symm
      | escape nm =>
        simp only [renderF] at h
        split at h
        · next o1 cx1 heq =>
            simp only [Prod.mk.injEq] at h
            rw [← h.2]
            exact ih _ ctx o1 cx1 heq
        · next r heq =>
            exact absurd h (heq out ctx2)
      | literal nm =>
        simp only [renderF] at h
        exact ih _ ctx out ctx2 h
      | part nm ind =>
        simp only [renderF, Prod.mk.injEq] at h
        exact absurd h.1 (by simp)
      | sect nm tree raw delims =>
        simp only [renderF] at h
        split at h
        · exact sectionLoop_preserve _ htree tree [] ctx out ctx2 h
        · split at h
          · split at h
            · split at h
              · exact sectionLoop_preserve _ htree _ _ ctx out ctx2 h
              · simp only [Prod.mk.injEq] at h
                exact absurd h.1 (by simp)
            · simp only [Prod.mk.injEq] at h
              exact absurd h.1 (by simp)
          · simp only [Prod.mk.injEq] at h
            exact absurd h.1 (by simp)
          · exact sectionLoop_preserve _ htree _ _ ctx out ctx2 h
          · exact sectionLoop_preserve _ htree _ _ ctx out ctx2 h
      | inverse nm tree raw delims =>
        simp only [renderF] at h
        split at h
        · simp only [Prod.mk.injEq] at h
          exact h.2.symm
        · exact ih _ ctx out ctx2 h
    | gsv nm =>
      simp only [renderF] at h
      split at h
      · simp only [Prod.mk.injEq] at h
        exact h.2.symm
      · split at h
        · exact ih _ ctx out ctx2 h
        · simp only [Prod.mk.injEq] at h
          exact absurd h.1 (by simp)
        · simp only [Prod.mk.injEq] at h
          exact h.2.symm
    | tmpl t delims =>
      simp only [renderF] at h
      split at h
      · exact ih _ ctx out ctx2 h
      · simp only [Prod.mk.injEq] at h
        exact absurd h.1 (by simp)

/-! ## Successful-iteration equations -/

/-- a one-literal body renders to the literal and leaves the context alone. -/
theorem renderTree_text (fuel : Nat) (a : List Char) (cx : Ctx) :
    renderTree (fuel+2) [.text a] cx = (.ok a, cx) := by
  simp [renderTree, renderF, foldTree]

/-- the section loop over elements whose body renders succeed: one body render per
element, in order, concatenated, with the element pushed during its render and the
stack restored afterwards. -/
theorem sectionLoop_ok (rt : List Segment → Ctx → RRes) (tree : List Segment) (ctx : Ctx)
    (outs : Value → List Char) :
    ∀ xs : List Value, (∀ x ∈ xs, rt tree (ctxPush x ctx) = (.ok (outs x), ctxPush x ctx)) →
    sectionLoop rt tree xs ctx = (.ok (xs.map outs).flatten, ctx) := by
  intro xs
  induction xs with
  | nil => intro _; simp [sectionLoop]
  | cons v vs ih =>
    intro hx
    have hv := hx v (by simp)
    have hrest := ih (fun x hxm => hx x (by simp [hxm]))
    have hpop : ctxPop (ctxPush v ctx) = ctx := rfl
    simp only [sectionLoop, hv, hpop, hrest, List.map_cons, List.flatten_cons]

/-- _get_string_value on a non-callable resolved value: no re-parse happens, the
value is only coerced to text (or replaced by the empty string when it is falsy
and not zero-like), and the context is untouched. -/
theorem gsv_noncallable (fuel : Nat) (ctx : Ctx) (name : List Char) (v : Value)
    (hV : ctxGet ctx name = v) (hvc : isCallable v = false) (hvn : name ≠ ['.']) :
    getStringValue (fuel+1) name ctx
      = (.ok (if pyTruthy v || pyEqZero v then pyStr v else []), ctx) := by
  cases v <;>
    simp_all [getStringValue, renderF, isCallable, pyTruthy, pyEqZero] <;>
    split <;> simp_all

/-! ## Claim statements, spec side -/

/-- spec-side: a List or Map value. -/
def isListOrMap : Value → Bool
  | .list _ => true
  | .map _ => true
  | _ => false

/-- spec-side: how many body copies a section over the value emits. -/
def sectCount (v : Value) : Nat :=
  if pyTruthy v then
    (match v with
     | .list xs => xs.length
     | _ => 1)
  else 0

/-- spec-side: the total body copies a section and inversion pair over the value
emits. -/
def dualCount (v : Value) : Nat := sectCount v + (if pyTruthy v then 0 else 1)

/-- definitional equation: one step of the escape closure. -/
theorem renderSeg_escape_eq (fuel : Nat) (name : List Char) (ctx : Ctx) :
    renderSeg (fuel+1) (.escape name) ctx =
      (match getStringValue fuel name ctx with
       | (.ok out, ctx1) => (.ok (cgiEscape out), ctx1)
       | r => r) := rfl

/-- definitional equation: one step of the literal closure. -/
theorem renderSeg_literal_eq (fuel : Nat) (name : List Char) (ctx : Ctx) :
    renderSeg (fuel+1) (.literal name) ctx = getStringValue fuel name ctx := rfl

/-- definitional equation: one step of the section closure. -/
theorem renderSeg_sect_eq (fuel : Nat) (name : List Char) (tree : List Segment)
    (raw : List Char) (d : Delims) (ctx : Ctx) :
    renderSeg (fuel+1) (.sect name tree raw d) ctx =
      (if pyTruthy (ctxGet ctx name) = false then
        sectionLoop (fun tr cx => renderF fuel (.tree tr) cx) tree [] ctx
      else
        match ctxGet ctx name with
        | .lam1 f =>
          (match f raw with
           | .text t2 =>
             (match parseString t2 d with
              | .ok tree2 =>
                sectionLoop (fun tr cx => renderF fuel (.tree tr) cx) tree2 [.lam1 f] ctx
              | .error e => (.error (.parse e), ctx))
           | _ => (.error .typeError, ctx))
        | .lam0 _ => (.error .typeError, ctx)
        | .list xs => sectionLoop (fun tr cx => renderF fuel (.tree tr) cx) tree xs ctx
        | v => sectionLoop (fun tr cx => renderF fuel (.tree tr) cx) tree [v] ctx) := rfl

/-- definitional equation: one step of the inverted-section closure. -/
theorem renderSeg_inverse_eq (fuel : Nat) (name : List Char) (tree : List Segment)
    (raw : List Char) (d : Delims) (ctx : Ctx) :
    renderSeg (fuel+1) (.inverse name tree raw d) ctx =
      (if pyTruthy (ctxGet ctx name) then (.ok [], ctx)
       else renderF fuel (.tree tree) ctx) := rfl

/-- a section over a falsy value renders nothing. -/
theorem sect_falsy (fuel : Nat) (ctx : Ctx) (name raw : List Char) (tree : List Segment)
    (d : Delims) (v : Value) (h : ctxGet ctx name = v) (ht : pyTruthy v = false) :
    renderSeg (fuel+1) (.sect name tree raw d) ctx = (.ok [], ctx) := by
  rw [renderSeg_sect_eq, h, if_pos ht]
  rfl

/-- the loop over one element whose body render succeeds. -/
theorem sectionLoop_singleton (rt : List Segment → Ctx → RRes) (tree : List Segment)
    (v : Value) (ctx : Ctx) (out : List Char) (ctx2 : Ctx)
    (h : rt tree (ctxPush v ctx) = (.ok out, ctx2)) :
    sectionLoop rt tree [v] ctx = (.ok (out ++ []), ctxPop ctx2) := by
  simp only [sectionLoop, h]

/-- a section over a truthy non-list non-callable value runs the loop on the
one-element list holding the value. -/
theorem sect_other (fuel : Nat) (ctx : Ctx) (name raw : List Char) (tree : List Segment)
    (d : Delims) (v : Value) (h : ctxGet ctx name = v) (ht : pyTruthy v = true)
    (hc : isCallable v = false) (hnl : ∀ xs, v ≠ .list xs) :
    renderSeg (fuel+1) (.sect name tree raw d) ctx
      = sectionLoop (fun tr cx => renderF fuel (.tree tr) cx) tree [v] ctx := by
  cases v with
  | null => simp [pyTruthy] at ht
  | bool b => rw [renderSeg_sect_eq, h, if_neg (by simp [ht])]
  | int n => rw [renderSeg_sect_eq, h, if_neg (by simp [ht])]
  | text st => rw [renderSeg_sect_eq, h, if_neg (by simp [ht])]
  | list xs => exact absurd rfl (hnl xs)
  | map es => rw [renderSeg_sect_eq, h, if_neg (by simp [ht])]
  | lam0 f => simp [isCallable] at hc
  | lam1 f => simp [isCallable] at hc

/-- a section over a truthy non-list non-callable value renders the one-literal
body once. -/
theorem sect_singleton (fuel : Nat) (ctx : Ctx) (name raw a : List Char) (d : Delims)
    (v : Value) (h : ctxGet ctx name = v) (ht : pyTruthy v = true)
    (hc : isCallable v = false) (hnl : ∀ xs, v ≠ .list xs) :
    renderSeg (fuel+3) (.sect name [.text a] raw d) ctx = (.ok a, ctx) := by
  have hb : (fun tr cx => renderF (fuel+2) (.tree tr) cx) [Segment.text a] (ctxPush v ctx)
      = (.ok a, ctxPush v ctx) := renderTree_text fuel a _
  have hstep := sect_other (fuel+2) ctx name raw [Segment.text a] d v h ht hc hnl
  have hloop := sectionLoop_singleton (fun tr cx => renderF (fuel+2) (.tree tr) cx)
    [Segment.text a] v ctx a (ctxPush v ctx) hb
  show renderSeg (fuel+2+1) (.sect name [.text a] raw d) ctx = (.ok a, ctx)
  rw [hstep, hloop, List.append_nil]
  rfl

/-- a map over a constant function is a replicate. -/
theorem map_const_rep (a : List Char) (xs : List Value) :
    xs.map (fun _ => a) = List.replicate xs.length a := by
  induction xs with
  | nil => rfl
  | cons y ys ih => simp [List.replicate, ih]

/-- a section over a list value renders the one-literal body once per element. -/
theorem sect_list (fuel : Nat) (ctx : Ctx) (name raw a : List Char) (d : Delims)
    (xs : List Value) (h : ctxGet ctx name = .list xs) :
    renderSeg (fuel+3) (.sect name [.text a] raw d) ctx
      = (.ok (List.replicate xs.length a).flatten, ctx) := by
  have hloop := sectionLoop_ok (fun tr cx => renderF (fuel+2) (.tree tr) cx)
    [Segment.text a] ctx (fun _ => a) xs (fun x _ => renderTree_text fuel a _)
  show renderSeg (fuel+2+1) (.sect name [.text a] raw d) ctx
    = (.ok (List.replicate xs.length a).flatten, ctx)
  rcases xs with _ | ⟨x1, rest⟩
  · rw [renderSeg_sect_eq, h, if_pos (by simp [pyTruthy])]
    simp [sectionLoop]
  · rw [renderSeg_sect_eq, h, if_neg (by simp [pyTruthy])]
    rw [show (match Value.list (x1 :: rest) with
        | .lam1 f =>
          (match f raw with
           | .text t2 =>
             (match parseString t2 d with
              | .ok tree2 =>
                sectionLoop (fun tr cx => renderF (fuel+2) (.tree tr) cx) tree2 [.lam1 f] ctx
              | .error e => ((.error (.parse e) : Except RErr (List Char)), ctx))
           | _ => ((.error .typeError : Except RErr (List Char)), ctx))
        | .lam0 _ => ((.error .typeError : Except RErr (List Char)), ctx)
        | .list xs =>
          sectionLoop (fun tr cx => renderF (fuel+2) (.tree tr) cx) [Segment.text a] xs ctx
        | v =>
          sectionLoop (fun tr cx => renderF (fuel+2) (.tree tr) cx) [Segment.text a] [v] ctx)
      = sectionLoop (fun tr cx => renderF (fuel+2) (.tree tr) cx) [Segment.text a]
          (x1 :: rest) ctx from rfl]
    rw [hloop, map_const_rep]

/-! ## Claim theorems: render engine -/

/-- C1 (amended): when a section resolves to a lambda, the engine invokes it once
with a single text argument equal to the stored raw body, requires the return to
already be text (there is no coercion), re-parses it with the delimiters stored on
the section node (those in effect at the closing tag of the section, which equal those of the
opening tag unless the body changed delimiters, and are not the default),
renders the parse once against the current context with the lambda pushed as the
innermost scope, and emits the result. -/
theorem c1_theorem (fuel : Nat) (ctx ctx2 : Ctx) (name raw t2 out : List Char)
    (tree tree2 : List Segment) (d : Delims) (f : List Char → Value)
    (h : ctxGet ctx name = .lam1 f)
    (hret : f raw = .text t2)
    (hp : parseString t2 d = .ok tree2)
    (hr : renderTree fuel tree2 (ctxPush (.lam1 f) ctx) = (.ok out, ctx2)) :
    renderSeg (fuel+1) (.sect name tree raw d) ctx = (.ok out, ctx) := by
  have hctx2 : ctx2 = ctxPush (.lam1 f) ctx := renderF_preserve fuel _ _ out ctx2 hr
  subst hctx2
  have hr2 : (fun tr cx => renderF fuel (.tree tr) cx) tree2 (ctxPush (.lam1 f) ctx)
      = (.ok out, ctxPush (.lam1 f) ctx) := hr
  have hpop : ctxPop (ctxPush (Value.lam1 f) ctx) = ctx := rfl
  simp only [renderSeg, renderF, h, hret, hp]
  rw [if_neg (by simp [pyTruthy])]
  simp only [sectionLoop, hr2, hpop, List.append_nil]

/-- C10: when a section resolves to a lambda, the engine pushes the lambda value
itself as the innermost scope while rendering the re-parsed body (the iteration
runs over the one-element list holding the lambda), so the name dot and stack
lookups inside that body resolve against the lambda. -/
theorem c10_theorem (fuel : Nat) (ctx : Ctx) (name raw t2 : List Char)
    (tree tree2 : List Segment) (d : Delims) (f : List Char → Value)
    (h : ctxGet ctx name = .lam1 f) (hret : f raw = .text t2)
    (hp : parseString t2 d = .ok tree2) :
    renderSeg (fuel+1) (.sect name tree raw d) ctx
      = sectionLoop (fun tr cx => renderF fuel (.tree tr) cx) tree2 [Value.lam1 f] ctx
    ∧ ctxTop (ctxPush (.lam1 f) ctx) = .lam1 f
    ∧ ctxGet (ctxPush (.lam1 f) ctx) ['.'] = .lam1 f := by
  refine ⟨?_, rfl, rfl⟩
  simp only [renderSeg, renderF, h, hret, hp]
  rw [if_neg (by simp [pyTruthy])]

/-- C4 (amended): zero is truthy at interpolation sites only: an interpolation
resolving to 0 emits the text 0, but a section whose name resolves to 0 treats it
as falsy and renders nothing, and an inverted section over 0 renders its body. -/
theorem c4_theorem (fuel : Nat) (ctx : Ctx) (name raw : List Char) (tree : List Segment)
    (d : Delims) (h : ctxGet ctx name = .int 0) :
    getStringValue (fuel+1) name ctx = (.ok ['0'], ctx)
    ∧ renderSeg (fuel+2) (.escape name) ctx = (.ok ['0'], ctx)
    ∧ renderSeg (fuel+1) (.sect name tree raw d) ctx = (.ok [], ctx)
    ∧ renderSeg (fuel+1) (.inverse name tree raw d) ctx = renderTree fuel tree ctx := by
  have h1 : getStringValue (fuel+1) name ctx = (.ok ['0'], ctx) := by
    simp [getStringValue, renderF, h, pyTruthy, pyEqZero, pyStr, pyReprD]
    rfl
  refine ⟨h1, ?_, ?_, ?_⟩
  · show renderSeg (fuel+1+1) (.escape name) ctx = (.ok ['0'], ctx)
    rw [renderSeg_escape_eq, h1]
    rfl
  · exact sect_falsy fuel ctx name raw tree d (Value.int 0) h rfl
  · rw [renderSeg_inverse_eq, h, if_neg (by simp [pyTruthy])]
    rfl

/-- C5: at an interpolation site a resolved zero-argument lambda is invoked with
no arguments, its return is coerced to text, re-parsed with the default
delimiters and rendered against the current context, and only then escaped (or
passed through literally); a resolved non-lambda value is never re-parsed: it is
only coerced to text (falsy non-zero values give the empty string) and then
escaped or passed through. -/
theorem c5_theorem (fuel : Nat) (ctx ctx2 : Ctx) (nameL nameV out : List Char)
    (f : Unit → Value) (v : Value)
    (hL : ctxGet ctx nameL = .lam0 f)
    (hout : renderTemplate fuel (coerceText (f ())) defaultDelims ctx = (.ok out, ctx2))
    (hV : ctxGet ctx nameV = v) (hvc : isCallable v = false) (hvn : nameV ≠ ['.']) :
    getStringValue (fuel+1) nameL ctx
        = renderTemplate fuel (coerceText (f ())) defaultDelims ctx
    ∧ renderSeg (fuel+2) (.escape nameL) ctx = (.ok (cgiEscape out), ctx2)
    ∧ renderSeg (fuel+2) (.literal nameL) ctx = (.ok out, ctx2)
    ∧ renderSeg (fuel+2) (.escape nameV) ctx
        = (.ok (cgiEscape (if pyTruthy v || pyEqZero v then pyStr v else [])), ctx)
    ∧ renderSeg (fuel+2) (.literal nameV) ctx
        = (.ok (if pyTruthy v || pyEqZero v then pyStr v else []), ctx) := by
  have h1 : getStringValue (fuel+1) nameL ctx
      = renderTemplate fuel (coerceText (f ())) defaultDelims ctx := by
    simp [getStringValue, renderF, hL, pyTruthy, renderTemplate]
  have hg := gsv_noncallable fuel ctx nameV v hV hvc hvn
  have hLout : getStringValue (fuel+1) nameL ctx = (.ok out, ctx2) := h1.trans hout
  refine ⟨h1, ?_, ?_, ?_, ?_⟩
  · show renderSeg (fuel+1+1) (.escape nameL) ctx = (.ok (cgiEscape out), ctx2)
    rw [renderSeg_escape_eq, hLout]
  · show renderSeg (fuel+1+1) (.literal nameL) ctx = (.ok out, ctx2)
    rw [renderSeg_literal_eq]
    exact hLout
  · show renderSeg (fuel+1+1) (.escape nameV) ctx
      = (.ok (cgiEscape (if pyTruthy v || pyEqZero v then pyStr v else [])), ctx)
    rw [renderSeg_escape_eq, hg]
  · show renderSeg (fuel+1+1) (.literal nameV) ctx
      = (.ok (if pyTruthy v || pyEqZero v then pyStr v else []), ctx)
    rw [renderSeg_literal_eq]
    exact hg

/-- C6 (amended): an escaped interpolation over a List or Map value emits the
escaped str() form of the value exactly when the value is truthy or the tag is
the implicit iterator dot, and the empty string otherwise: an empty collection
under an ordinary name is falsy and emits nothing, but at the dot tag the
falsy non-zero value is replaced by context.top() (the same innermost
collection) and coerced, so the dot over an innermost empty list emits its
str() form; a non-empty collection is never special-cased and always goes
through str(). -/
theorem c6_theorem (fuel : Nat) (ctx : Ctx) (name : List Char) (v : Value)
    (h : ctxGet ctx name = v) (h2 : isListOrMap v = true) :
    renderSeg (fuel+2) (.escape name) ctx
      = (.ok (if pyTruthy v = true ∨ name = ['.'] then cgiEscape (pyStr v) else []),
         ctx) := by
  have hvc : isCallable v = false := by
    cases v <;> simp_all [isListOrMap, isCallable]
  have hz : pyEqZero v = false := by
    cases v <;> simp_all [isListOrMap, pyEqZero]
  by_cases hd : name = ['.']
  · have hg : getStringValue (fuel+1) name ctx = (.ok (pyStr v), ctx) := by
      subst hd
      have htop : ctxTop ctx = v := by
        rw [← h]; simp [ctxGet]
      cases v <;>
        simp_all [getStringValue, renderF, ctxGet, isListOrMap, pyTruthy, pyEqZero]
    show renderSeg (fuel+1+1) (.escape name) ctx = _
    rw [renderSeg_escape_eq, hg]
    simp [hd]
  · have hg : getStringValue (fuel+1) name ctx
        = (.ok (if pyTruthy v || pyEqZero v then pyStr v else []), ctx) :=
      gsv_noncallable fuel ctx name v h hvc hd
    rw [hz] at hg
    simp only [Bool.or_false] at hg
    show renderSeg (fuel+1+1) (.escape name) ctx = _
    rw [renderSeg_escape_eq, hg]
    by_cases ht : pyTruthy v = true <;> simp [ht, hd, cgiEscape]

/-- C7: a section over a list of length n renders its body exactly once per
element in list order, concatenating the results; during the i-th rendering the
i-th element is the pushed innermost scope (the value of the name dot), and the
scope is popped after each rendering so the context ends as it began. -/
theorem c7_theorem (fuel : Nat) (ctx : Ctx) (name raw : List Char) (tree : List Segment)
    (d : Delims) (xs : List Value) (outs : Value → List Char)
    (h : ctxGet ctx name = .list xs)
    (hb : ∀ x ∈ xs, renderTree fuel tree (ctxPush x ctx) = (.ok (outs x), ctxPush x ctx)) :
    renderSeg (fuel+1) (.sect name tree raw d) ctx = (.ok (xs.map outs).flatten, ctx)
    ∧ ∀ x : Value, ctxTop (ctxPush x ctx) = x ∧ ctxGet (ctxPush x ctx) ['.'] = x := by
  refine ⟨?_, fun x => ⟨rfl, rfl⟩⟩
  have hloop := sectionLoop_ok (fun tr cx => renderF fuel (.tree tr) cx) tree ctx outs xs hb
  rcases xs with _ | ⟨x1, rest⟩
  · simp [renderSeg, renderF, h, pyTruthy, sectionLoop]
  · have htr : pyTruthy (Value.list (x1 :: rest)) = true := by simp [pyTruthy]
    simp only [renderSeg, renderF, h]
    rw [if_neg (by simp [htr])]
    exact hloop

/-- C9 (amended): for a non-callable value bound to x, a section and an inverted
section over the same literal body A together emit A exactly dualCount times:
once when the value is not a list (from the section when truthy, from the
inversion when falsy), once per element when it is a list (plus the single
inversion copy when the list is empty); lambdas are excluded because the section
invokes them instead of emitting A. -/
theorem c9_theorem (fuel : Nat) (ctx : Ctx) (name raw a : List Char) (d : Delims) (v : Value)
    (h : ctxGet ctx name = v) (hc : isCallable v = false) :
    renderSeg (fuel+3) (.sect name [.text a] raw d) ctx
        = (.ok (List.replicate (sectCount v) a).flatten, ctx)
    ∧ renderSeg (fuel+3) (.inverse name [.text a] raw d) ctx
        = (.ok (if pyTruthy v then [] else a), ctx)
    ∧ (List.replicate (sectCount v) a).flatten ++ (if pyTruthy v then [] else a)
        = (List.replicate (dualCount v) a).flatten := by
  refine ⟨?_, ?_, ?_⟩
  · by_cases ht : pyTruthy v = true
    · rcases hxs : v with _ | b | n | st | xs | es | f | f
      · rw [hxs] at ht; simp [pyTruthy] at ht
      · have hsc : sectCount (Value.bool b) = 1 := by
          rw [hxs] at ht; simp [sectCount, ht]
        rw [hsc]
        have := sect_singleton fuel ctx name raw a d (Value.bool b) (hxs ▸ h) (hxs ▸ ht)
          (by simp [isCallable]) (fun xs2 hEq => Value.noConfusion hEq)
        simpa using this
      · have hsc : sectCount (Value.int n) = 1 := by
          rw [hxs] at ht; simp [sectCount, ht]
        rw [hsc]
        have := sect_singleton fuel ctx name raw a d (Value.int n) (hxs ▸ h) (hxs ▸ ht)
          (by simp [isCallable]) (fun xs2 hEq => Value.noConfusion hEq)
        simpa using this
      · have hsc : sectCount (Value.text st) = 1 := by
          rw [hxs] at ht; simp [sectCount, ht]
        rw [hsc]
        have := sect_singleton fuel ctx name raw a d (Value.text st) (hxs ▸ h) (hxs ▸ ht)
          (by simp [isCallable]) (fun xs2 hEq => Value.noConfusion hEq)
        simpa using this
      · have hsc : sectCount (Value.list xs) = xs.length := by
          rw [hxs] at ht; simp [sectCount, ht]
        rw [hsc]
        exact sect_list fuel ctx name raw a d xs (hxs ▸ h)
      · have hsc : sectCount (Value.map es) = 1 := by
          rw [hxs] at ht; simp [sectCount, ht]
        rw [hsc]
        have := sect_singleton fuel ctx name raw a d (Value.map es) (hxs ▸ h) (hxs ▸ ht)
          (by simp [isCallable]) (fun xs2 hEq => Value.noConfusion hEq)
        simpa using this
      · rw [hxs] at hc; simp [isCallable] at hc
      · rw [hxs] at hc; simp [isCallable] at hc
    · have ht2 : pyTruthy v = false := by simpa using ht
      have hsc : sectCount v = 0 := by simp [sectCount, ht2]
      rw [hsc]
      simpa using sect_falsy (fuel+2) ctx name raw [Segment.text a] d v h ht2
  · show renderSeg (fuel+2+1) (.inverse name [.text a] raw d) ctx
      = (.ok (if pyTruthy v then [] else a), ctx)
    by_cases ht : pyTruthy v = true
    · rw [renderSeg_inverse_eq, h, if_pos ht, ht]
      simp
    · have ht2 : pyTruthy v = false := by simpa using ht
      rw [renderSeg_inverse_eq, h, if_neg (by simp [ht2]), ht2]
      simpa using renderTree_text fuel a ctx
  · by_cases ht : pyTruthy v = true
    · simp [dualCount, ht]
    · have ht2 : pyTruthy v = false := by simpa using ht
      have hsc : sectCount v = 0 := by simp [sectCount, ht2]
      simp [dualCount, ht2, hsc]

/-- C8 (amended): scope pushes and pops are paired on every successful render:
when rendering a parse tree returns normally the context stack is exactly what it
was before. (When a nested evaluation raises, the pop is skipped and the pushed
scope survives the escaping exception; see the counterexample.) -/
theorem c8_theorem (fuel : Nat) (tr : List Segment) (ctx : Ctx) (out : List Char) (ctx2 : Ctx)
    (h : renderTree fuel tr ctx = (.ok out, ctx2)) :
    ctx2 = ctx ∧ ctx2.length = ctx.length := by
  have := renderF_preserve fuel _ ctx out ctx2 h
  exact ⟨this, by rw [this]⟩

/-- decidable equality for Except results. -/
instance {e a : Type} [DecidableEq e] [DecidableEq a] : DecidableEq (Except e a) := by
  intro x y
  cases x with
  | ok v =>
    cases y with
    | ok w => exact if h : v = w then isTrue (by rw [h]) else isFalse (by
        intro hh
        exact h (Except.ok.inj hh))
    | error w => exact isFalse (fun hh => Except.noConfusion hh)
  | error v =>
    cases y with
    | ok w => exact isFalse (fun hh => Except.noConfusion hh)
    | error w => exact if h : v = w then isTrue (by rw [h]) else isFalse (by
        intro hh
        exact h (Except.error.inj hh))

/-! ## Concrete inputs for the counterexamples and witnesses -/

/-- open double brace. -/
def lbb : List Char := ['{', '{']

/-- close double brace. -/
def rbb : List Char := ['}', '}']

def c1t1 : List Char :=
  lbb ++ ['#', 's'] ++ rbb ++ lbb ++ ('=' :: "<% %>".data) ++ ('=' :: rbb) ++ "<%/s%>".data

def c1ctx1 : Ctx :=
  [.map [(['s'], .lam1 (fun _ => .text "<%a%>".data)), (['a'], .text ['X'])]]

def c1t2 : List Char := lbb ++ ['#', 'x'] ++ rbb ++ ['b'] ++ lbb ++ ['/', 'x'] ++ rbb

def c1ctx2 : Ctx := [.map [(['x'], .lam1 (fun _ => .int 5))]]

/-- C1 counterexample: the template opens a section with the default delimiters,
changes delimiters inside the body, and closes with the new ones; the section
lambda returns a tag in the new delimiters, which renders (to X), so the re-parse
used the delimiters at the closing tag, not those in effect at the opening tag
(re-parsing with those would have left the text uninterpreted); and a section
lambda returning a number raises TypeError instead of being coerced to text. -/
theorem c1_counterexample :
    (renderTemplate 50 c1t1 defaultDelims c1ctx1).1 = Except.ok ['X']
    ∧ (Except.ok ['X'] : Except RErr (List Char)) ≠ Except.ok "<%a%>".data
    ∧ (renderTemplate 50 c1t2 defaultDelims c1ctx2).1 = Except.error RErr.typeError := by
  refine ⟨by decide, by decide, by decide⟩

def c1wg : List Char → Value := fun _ => Value.text ['h', 'i']

def c1wctx : Ctx := [.map [(['s'], .lam1 c1wg)]]

/-- C1 witness at a concrete input. -/
theorem c1_witness :
    renderSeg 3 (.sect ['s'] [] ['R'] defaultDelims) c1wctx = (.ok ['h', 'i'], c1wctx) :=
  c1_theorem 2 c1wctx (ctxPush (.lam1 c1wg) c1wctx) ['s'] ['R'] ['h', 'i'] ['h', 'i']
    [] [Segment.text ['h', 'i']] defaultDelims c1wg rfl rfl rfl rfl

def c10wg : List Char → Value := fun _ => Value.text ['h', 'i']

def c10wctx : Ctx := [.map [(['s'], .lam1 c10wg)]]

/-- C10 witness at a concrete input. -/
theorem c10_witness :
    renderSeg 3 (.sect ['s'] [] ['R'] defaultDelims) c10wctx
      = sectionLoop (fun tr cx => renderF 2 (.tree tr) cx) [Segment.text ['h', 'i']]
          [Value.lam1 c10wg] c10wctx
    ∧ ctxTop (ctxPush (.lam1 c10wg) c10wctx) = .lam1 c10wg
    ∧ ctxGet (ctxPush (.lam1 c10wg) c10wctx) ['.'] = .lam1 c10wg :=
  c10_theorem 2 c10wctx ['s'] ['R'] ['h', 'i'] [] [Segment.text ['h', 'i']]
    defaultDelims c10wg rfl rfl rfl

def c2t : List Char := lbb ++ ['!', 'c'] ++ rbb ++ [' ', '\n', 'A']

/-- C2 counterexample: a comment tag followed by one space and a newline is, per
the claim, standalone (only horizontal whitespace to the next newline), yet the
engine keeps the space and the newline: the match must end immediately before
the line end for the standalone branch to fire. -/
theorem c2_counterexample :
    (renderTemplate 20 c2t defaultDelims []).1 = Except.ok [' ', '\n', 'A']
    ∧ (Except.ok [' ', '\n', 'A'] : Except RErr (List Char)) ≠ Except.ok ['A'] := by
  refine ⟨by decide, by decide⟩

def c4t1 : List Char := lbb ++ ['#', 'x'] ++ rbb ++ ['A'] ++ lbb ++ ['/', 'x'] ++ rbb

def c4t2 : List Char := lbb ++ ['^', 'x'] ++ rbb ++ ['A'] ++ lbb ++ ['/', 'x'] ++ rbb

def c4ctx : Ctx := [.map [(['x'], .int 0)]]

/-- C4 counterexample: with x bound to 0, the section renders nothing (the claim
asks for one body copy) and the inverted section renders its body (the claim
asks for nothing). -/
theorem c4_counterexample :
    (renderTemplate 20 c4t1 defaultDelims c4ctx).1 = Except.ok []
    ∧ (Except.ok [] : Except RErr (List Char)) ≠ Except.ok ['A']
    ∧ (renderTemplate 20 c4t2 defaultDelims c4ctx).1 = Except.ok ['A'] := by
  refine ⟨by decide, by decide, by decide⟩

def c4wctx : Ctx := [.map [(['x'], .int 0)]]

/-- C4 witness at a concrete input. -/
theorem c4_witness :
    getStringValue 1 ['x'] c4wctx = (.ok ['0'], c4wctx)
    ∧ renderSeg 2 (.escape ['x']) c4wctx = (.ok ['0'], c4wctx)
    ∧ renderSeg 1 (.sect ['x'] [] [] defaultDelims) c4wctx = (.ok [], c4wctx)
    ∧ renderSeg 1 (.inverse ['x'] [] [] defaultDelims) c4wctx = renderTree 0 [] c4wctx :=
  c4_theorem 0 c4wctx ['x'] [] [] defaultDelims rfl

def c5wf : Unit → Value := fun _ => Value.int 7

def c5wctx : Ctx := [.map [(['l'], .lam0 c5wf), (['w'], .text ['<'])]]

/-- C5 witness at a concrete input: the lambda returns the number 7, which is
coerced to the text 7, re-parsed and rendered; the plain value renders through
the escape only. -/
theorem c5_witness :
    getStringValue 4 ['l'] c5wctx = renderTemplate 3 (coerceText (c5wf ())) defaultDelims c5wctx
    ∧ renderSeg 5 (.escape ['l']) c5wctx = (.ok ['7'], c5wctx)
    ∧ renderSeg 5 (.literal ['l']) c5wctx = (.ok ['7'], c5wctx)
    ∧ renderSeg 5 (.escape ['w']) c5wctx = (.ok "&lt;".data, c5wctx)
    ∧ renderSeg 5 (.literal ['w']) c5wctx = (.ok ['<'], c5wctx) :=
  c5_theorem 3 c5wctx c5wctx ['l'] ['w'] ['7'] c5wf (.text ['<'])
    rfl rfl rfl rfl (by decide)

def c6t : List Char := lbb ++ ['x'] ++ rbb

def c6ctx : Ctx := [.map [(['x'], .list [.int 1, .int 2])]]

/-- C6 counterexample: an interpolation of a non-empty list emits the Python
text of the list, not the empty string. -/
theorem c6_counterexample :
    (renderTemplate 20 c6t defaultDelims c6ctx).1 = Except.ok "[1, 2]".data
    ∧ "[1, 2]".data ≠ ([] : List Char) := by
  refine ⟨by decide, by decide⟩

def c6wctx : Ctx := [.map [(['x'], .list [.int 3])]]

def c6wctx2 : Ctx := [.list []]

/-- C6 witness at concrete inputs: a truthy list under an ordinary name is
coerced through str(), and the dot tag over an innermost empty list also emits
the str() form of the empty collection. -/
theorem c6_witness :
    renderSeg 2 (.escape ['x']) c6wctx = (.ok "[3]".data, c6wctx)
    ∧ renderSeg 2 (.escape ['.']) c6wctx2 = (.ok "[]".data, c6wctx2) :=
  ⟨c6_theorem 0 c6wctx ['x'] (.list [.int 3]) rfl rfl,
   c6_theorem 0 c6wctx2 ['.'] (.list []) rfl rfl⟩

def c7wctx : Ctx := [.map [(['x', 's'], .list [.int 1, .int 2])]]

/-- C7 witness at a concrete input. -/
theorem c7_witness :
    renderSeg 3 (.sect ['x', 's'] [Segment.text ['A']] ['A'] defaultDelims) c7wctx
      = (.ok ['A', 'A'], c7wctx) :=
  (c7_theorem 2 c7wctx ['x', 's'] ['A'] [Segment.text ['A']] defaultDelims
    [.int 1, .int 2] (fun _ => ['A']) rfl
    (by intro x hx; rcases hx with _ | ⟨_, _ | ⟨_, h⟩⟩ <;> rfl)).1

def c8lam : Value := .lam0 (fun _ => .text (lbb ++ ['/', 'q'] ++ rbb))

def c8elem : Value := .map [(['y'], c8lam)]

def c8cctx : Ctx := [.map [(['x', 's'], .list [c8elem])]]

def c8t : List Char :=
  lbb ++ ['#', 'x', 's'] ++ rbb ++ lbb ++ ['y'] ++ rbb ++ lbb ++ ['/', 'x', 's'] ++ rbb

/-- C8 counterexample: the body interpolates a lambda whose returned template is
a stray close tag; the EndOfSection escapes the body render, the pop after the
push of the list element never runs, and the error leaves the context one scope
deeper than it started. -/
theorem c8_counterexample :
    (renderTemplate 50 c8t defaultDelims c8cctx).1 = Except.error (RErr.parse PErr.endOfSection)
    ∧ (renderTemplate 50 c8t defaultDelims c8cctx).2.length = c8cctx.length + 1 := by
  refine ⟨by decide, by decide⟩

/-- C8 witness at a concrete input. -/
theorem c8_witness :
    ([Value.int 0] : Ctx) = [Value.int 0]
    ∧ ([Value.int 0] : Ctx).length = ([Value.int 0] : Ctx).length :=
  c8_theorem 2 [Segment.text ['A']] [Value.int 0] ['A'] [Value.int 0] rfl

def c9t1 : List Char := lbb ++ ['#', 'x'] ++ rbb ++ ['A'] ++ lbb ++ ['/', 'x'] ++ rbb

def c9t2 : List Char := lbb ++ ['^', 'x'] ++ rbb ++ ['A'] ++ lbb ++ ['/', 'x'] ++ rbb

def c9ctxA : Ctx := [.map [(['x'], .list [.int 1, .int 2])]]

def c9ctxB : Ctx := [.map [(['x'], .lam1 (fun _ => .text []))]]

/-- C9 counterexample: with x bound to a two-element list the section and the
inversion together emit the body twice, not once; with x bound to a lambda the
section invokes it (here rendering its empty template) and the pair emits the
body zero times. -/
theorem c9_counterexample :
    (renderTemplate 20 c9t1 defaultDelims c9ctxA).1 = Except.ok ['A', 'A']
    ∧ (renderTemplate 20 c9t2 defaultDelims c9ctxA).1 = Except.ok []
    ∧ (['A', 'A'] : List Char) ≠ ['A']
    ∧ (renderTemplate 20 c9t1 defaultDelims c9ctxB).1 = Except.ok []
    ∧ (renderTemplate 20 c9t2 defaultDelims c9ctxB).1 = Except.ok [] := by
  refine ⟨by decide, by decide, by decide, by decide, by decide⟩

def c9wctx : Ctx := [.map [(['x'], .int 7)]]

/-- C9 witness at a concrete input. -/
theorem c9_witness :
    renderSeg 3 (.sect ['x'] [Segment.text ['A']] [] defaultDelims) c9wctx
        = (.ok ['A'], c9wctx)
    ∧ renderSeg 3 (.inverse ['x'] [Segment.text ['A']] [] defaultDelims) c9wctx
        = (.ok [], c9wctx)
    ∧ (List.replicate (sectCount (Value.int 7)) ['A']).flatten
        ++ (if pyTruthy (Value.int 7) then [] else ['A'])
        = (List.replicate (dualCount (Value.int 7)) ['A']).flatten :=
  c9_theorem 0 c9wctx ['x'] [] ['A'] defaultDelims (.int 7) rfl rfl

/-! ## Claim theorems: the parser and section closing -/

/-- the standalone adjustment never changes the tag, name or content captures. -/
theorem stripAdjust_keeps (t : List Char) (m : TagMatch) :
    (stripAdjust t m).1.tag = m.tag ∧ (stripAdjust t m).1.name = m.name
    ∧ (stripAdjust t m).1.content = m.content := by
  unfold stripAdjust
  split
  · exact ⟨rfl, rfl, rfl⟩
  · split
    · exact ⟨rfl, rfl, rfl⟩
    · exact ⟨rfl, rfl, rfl⟩

/-- C3 (amended): the closing-tag branch of the parser does not compare names: a
close tag raises EndOfSection carrying the tree, the body slice and the resume
position, none of which depend on the name of the close tag, so the first close tag of
any name ends the innermost open section; and when the recursive body parse of a
section returns normally (the template ended with no close tag at all), parsing
fails with the unbound-local error instead of building a node. -/
theorem c3_theorem (pfuel : Nat) (st : Delims) (start : Nat) (acc : List Segment)
    (t : List Char) (i : Nat) (m : TagMatch)
    (hft : findTag st.1 st.2 t i = some m) :
    (m.tag = ['/'] →
      parseLoop (pfuel+1) st start acc t i
        = .eos (acc ++ stepAppends t m) (slice t start (stripAdjust t m).1.matchIndex)
            (stripAdjust t m).1.endIndex st)
    ∧ (m.tag = ['#'] →
      ∀ bufr tmpl pos st2,
        parseLoop pfuel st (stripAdjust t m).1.endIndex [] t (stripAdjust t m).1.endIndex
            = .eos bufr tmpl pos st2 →
        parseLoop (pfuel+1) st start acc t i
          = parseLoop pfuel st2 start
              (acc ++ stepAppends t m ++ [Segment.sect m.name bufr tmpl st2]) t pos)
    ∧ (m.tag = ['#'] ∨ m.tag = ['^'] →
      ∀ tr st2,
        parseLoop pfuel st (stripAdjust t m).1.endIndex [] t (stripAdjust t m).1.endIndex
            = .done tr st2 →
        parseLoop (pfuel+1) st start acc t i = .perr .unboundLocal) := by
  have hkeep := stripAdjust_keeps t m
  refine ⟨?_, ?_, ?_⟩
  · intro htag
    simp only [parseLoop, hft, stepAppends]
    rw [hkeep.1, htag]
    simp
  · intro htag bufr tmpl pos st2 heos
    simp only [parseLoop, hft, stepAppends]
    rw [hkeep.1, hkeep.2.1, htag]
    simp only [heos]
    simp [List.append_assoc]
  · intro htag tr st2 hdone
    rcases htag with htag | htag <;>
      (simp only [parseLoop, hft, stepAppends]
       rw [hkeep.1, htag]
       simp only [hdone]
       simp)

def c3cexT : List Char := lbb ++ ['#', 'a'] ++ rbb ++ ['x'] ++ lbb ++ ['/', 'b'] ++ rbb

/-- C3 counterexample: a section opened as a and closed as b parses successfully
into a section node (the claim requires a parse error on the name mismatch). -/
theorem c3_counterexample :
    parseString c3cexT defaultDelims
      = .ok [Segment.text [], Segment.sect ['a'] [Segment.text ['x']] ['x'] defaultDelims,
          Segment.text []] := by
  rfl

def c3wT : List Char := lbb ++ ['/', 'q'] ++ rbb

/-- C3 witness at a concrete input: a close tag raises EndOfSection. -/
theorem c3_witness :
    parseLoop 5 defaultDelims 0 [] c3wT 0
      = .eos [Segment.text []] [] 6 defaultDelims :=
  (c3_theorem 4 defaultDelims 0 [] c3wT 0
    { content := [], ws := [], tag := ['/'], name := ['q'], matchIndex := 0, endIndex := 6 }
    rfl).1 rfl

/-! ## Claim C2: standalone characterisation -/

/-- position of the opening delimiter of the tag: the whitespace capture sits between
the content end and the delimiter. -/
def tagStart (m : TagMatch) : Nat := m.matchIndex + m.ws.length

/-- spec-side: between the preceding newline (or the start of the template) and
position q there is only horizontal whitespace. -/
def specBegin (t : List Char) (q : Nat) : Bool :=
  ((t.take q).reverse.takeWhile (fun c => !isEOL c)).all hws

/-- spec-side: how many characters the line terminator after position e spans
(newline, carriage return plus newline, or carriage return alone). -/
def eolConsume (t : List Char) (e : Nat) : Nat :=
  if charAt t e = some '\r' ∧ charAt t (e+1) = some '\n' then 2
  else if charAt t e = some '\r' ∨ charAt t e = some '\n' then 1
  else 0

/-- charAt is the optional index. -/
theorem charAt_eq (t : List Char) (n : Nat) : charAt t n = t[n]? := by
  simp [charAt]

/-- horizontal whitespace is not a line end. -/
theorem hws_not_eol (c : Char) (h : hws c = true) : isEOL c = false := by
  simp only [hws, Bool.or_eq_true, decide_eq_true_eq] at h
  rcases h with rfl | rfl <;> rfl

/-- the horizontal-whitespace prefix run is bounded by the length. -/
theorem hwsPrefLen_le (l : List Char) : hwsPrefLen l ≤ l.length := by
  induction l with
  | nil => simp [hwsPrefLen]
  | cons c cs ih =>
    simp only [hwsPrefLen, List.length_cons]
    split <;> omega

/-- every position inside the prefix run is horizontal whitespace. -/
theorem hwsPrefLen_all (l : List Char) :
    ∀ j c, j < hwsPrefLen l → l[j]? = some c → hws c = true := by
  induction l with
  | nil => intro j c hj; simp [hwsPrefLen] at hj
  | cons c0 cs ih =>
    intro j c hj hg
    by_cases h0 : hws c0 = true
    · rcases j with _ | j
      · simp at hg
        rw [← hg]
        exact h0
      · simp only [List.getElem?_cons_succ] at hg
        refine ih j c ?_ hg
        simp [hwsPrefLen, h0] at hj
        omega
    · simp [hwsPrefLen, h0] at hj

/-- the position just past the prefix run is not horizontal whitespace. -/
theorem hwsPrefLen_next (l : List Char) (h : hwsPrefLen l < l.length) :
    ∃ c, l[hwsPrefLen l]? = some c ∧ hws c = false := by
  induction l with
  | nil => simp at h
  | cons c0 cs ih =>
    by_cases h0 : hws c0 = true
    · have hpl : hwsPrefLen (c0 :: cs) = hwsPrefLen cs + 1 := by simp [hwsPrefLen, h0]
      rw [hpl] at h ⊢
      have hlt : hwsPrefLen cs < cs.length := by
        simp only [List.length_cons] at h
        omega
      obtain ⟨c, hc1, hc2⟩ := ih hlt
      exact ⟨c, by simpa using hc1, hc2⟩
    · have hpl : hwsPrefLen (c0 :: cs) = 0 := by simp [hwsPrefLen, h0]
      rw [hpl]
      exact ⟨c0, by simp, by simpa using h0⟩

/-- takeWhile passes over a first part whose elements all satisfy the test. -/
theorem takeWhile_append_all (p : Char → Bool) (l1 l2 : List Char)
    (h : ∀ x ∈ l1, p x = true) :
    (l1 ++ l2).takeWhile p = l1 ++ l2.takeWhile p := by
  induction l1 with
  | nil => simp
  | cons c cs ih =>
    rw [List.cons_append, List.takeWhile_cons, h c (by simp),
      ih (fun x hx => h x (by simp [hx]))]
    simp

/-- a scan hit sits at the attempted position and has the delimiter there. -/
theorem scanHit_spec (otag ctag t : List Char) (q : Nat) (r : Nat × List Char × List Char × Nat)
    (h : scanHit otag ctag t q = some r) : r.1 = q ∧ occursAt otag t q = true := by
  unfold scanHit at h
  split at h
  · next rb heq =>
      have hocc : occursAt otag t q = true := by
        by_contra hno
        simp only [Bool.not_eq_true] at hno
        rw [hno] at heq
        simp at heq
      simp only [Option.some.injEq] at h
      rw [← h]
      exact ⟨rfl, hocc⟩
  · exact absurd h (by simp)

/-- the scan returns a hit at or after its start position. -/
theorem scanQ_spec (otag ctag t : List Char) :
    ∀ (rem : List Char) (q0 : Nat) (r : Nat × List Char × List Char × Nat),
    scanQ otag ctag t q0 rem = some r → q0 ≤ r.1 ∧ occursAt otag t r.1 = true := by
  intro rem
  induction rem with
  | nil =>
    intro q0 r hs
    have hsp := scanHit_spec otag ctag t q0 r hs
    exact ⟨by rw [hsp.1], by rw [hsp.1]; exact hsp.2⟩
  | cons c1 rest ih =>
    intro q0 r hs
    unfold scanQ at hs
    split at hs
    · next r1 heq =>
        simp only [Option.some.injEq] at hs
        have hsp := scanHit_spec otag ctag t q0 r1 heq
        rw [← hs]
        exact ⟨by rw [hsp.1], by rw [hsp.1]; exact hsp.2⟩
    · have := ih (q0+1) r hs
      exact ⟨by omega, this.2⟩

/-- the optional index into a slice. -/
theorem slice_getElem? (t : List Char) (i q j : Nat) (h : i + j < q) :
    (slice t i q)[j]? = t[i + j]? := by
  simp only [slice]
  rw [List.getElem?_drop, List.getElem?_take]
  simp [h]

/-- the structure of a tag_re match: the whitespace capture is the maximal
horizontal-whitespace run (bounded below by the scan index) immediately before
the opening delimiter of the tag. -/
theorem findTag_ws (otag ctag t : List Char) (i : Nat) (m : TagMatch)
    (hot : otag ≠ []) (hft : findTag otag ctag t i = some m) :
    i ≤ m.matchIndex ∧ m.matchIndex ≤ tagStart m ∧ tagStart m ≤ t.length
    ∧ m.ws = (t.take (tagStart m)).drop m.matchIndex
    ∧ (∀ j c, m.matchIndex ≤ j → j < tagStart m → t[j]? = some c → hws c = true)
    ∧ (m.matchIndex = i ∨ ∃ c, t[m.matchIndex - 1]? = some c ∧ hws c = false) := by
  unfold findTag at hft
  rw [Option.map_eq_some'] at hft
  obtain ⟨r, hscan, hmk⟩ := hft
  set q := r.1 with hqdef
  have hq : i ≤ q ∧ occursAt otag t q = true := scanQ_spec otag ctag t (t.drop i) i r hscan
  have hqlen : q < t.length := by
    rcases otag with _ | ⟨c1, rest⟩
    · exact absurd rfl hot
    · have h2 := hq.2
      by_contra hge
      simp only [Nat.not_lt] at hge
      rw [occursAt, List.drop_eq_nil_of_le hge] at h2
      simp [List.isPrefixOf] at h2
  set l := slice t i q with hl
  set k := hwsSuffixLen l with hk
  have hLlen : l.length = q - i := by
    rw [hl]
    simp only [slice, List.length_drop, List.length_take]
    omega
  have hkL : k ≤ q - i := by
    rw [hk, hwsSuffixLen, ← hLlen]
    have := hwsPrefLen_le l.reverse
    simpa using this
  have hmi : m.matchIndex = q - k := by rw [← hmk]; rfl
  have hwsdef : m.ws = slice t (q - k) q := by rw [← hmk]; rfl
  have hwslen : m.ws.length = k := by
    rw [hwsdef]
    simp only [slice, List.length_drop, List.length_take]
    omega
  have hts : tagStart m = q := by
    rw [tagStart, hmi, hwslen]
    omega
  have hprefk : hwsPrefLen l.reverse = k := by rw [hk, hwsSuffixLen]
  have hregion : ∀ j c, q - k ≤ j → j < q → t[j]? = some c → hws c = true := by
    intro j c hj1 hj2 hg
    have hjl : j - i < l.length := by omega
    have hrev : l.reverse[l.length - 1 - (j - i)]? = l[l.length - 1 - (l.length - 1 - (j - i))]? :=
      List.getElem?_reverse (by omega)
    have hidx : l.length - 1 - (l.length - 1 - (j - i)) = j - i := by omega
    rw [hidx] at hrev
    have hlj : l[j - i]? = t[j]? := by
      have h2 := slice_getElem? t i q (j - i) (by omega)
      rw [show i + (j - i) = j from by omega] at h2
      exact h2
    refine hwsPrefLen_all l.reverse (l.length - 1 - (j - i)) c ?_ (by rw [hrev, hlj]; exact hg)
    rw [hprefk]
    omega
  refine ⟨?_, ?_, ?_, ?_, ?_, ?_⟩
  · rw [hmi]; omega
  · rw [hts, hmi]; omega
  · rw [hts]; omega
  · rw [hts, hwsdef, hmi]; rfl
  · rw [hts, hmi]; exact hregion
  · by_cases hkfull : k = q - i
    · left
      rw [hmi]
      omega
    · right
      have hnext := hwsPrefLen_next l.reverse (by
        rw [List.length_reverse, hLlen, hprefk]
        omega)
      rw [hprefk] at hnext
      obtain ⟨c, hcg, hcf⟩ := hnext
      have hrev : l.reverse[k]? = l[l.length - 1 - k]? := by
        have := List.getElem?_reverse (l := l) (i := k) (by rw [hLlen]; omega)
        exact this
      rw [hrev] at hcg
      have hidx2 : l.length - 1 - k = q - k - 1 - i := by rw [hLlen]; omega
      rw [hidx2] at hcg
      have h2 := slice_getElem? t i q (q - k - 1 - i) (by omega)
      rw [show i + (q - k - 1 - i) = q - k - 1 from by omega] at h2
      have hcg2 : (slice t i q)[q - k - 1 - i]? = some c := hcg
      rw [h2] at hcg2
      refine ⟨c, ?_, hcf⟩
      rw [hmi]
      exact hcg2

/-- the line-start test of the code (the character before the whitespace capture is a
line end or the template start) is equivalent to the spec reading (only
horizontal whitespace between the preceding newline and the tag), given the
maximality of the whitespace capture and the invariant that a parse never resumes
right after horizontal whitespace. -/
theorem didBegin_iff (t : List Char) (i : Nat) (m : TagMatch)
    (h1 : i ≤ m.matchIndex) (h2 : m.matchIndex ≤ tagStart m) (h3 : tagStart m ≤ t.length)
    (h5 : m.ws = (t.take (tagStart m)).drop m.matchIndex)
    (h6 : ∀ j c, m.matchIndex ≤ j → j < tagStart m → t[j]? = some c → hws c = true)
    (h7 : m.matchIndex = i ∨ ∃ c, t[m.matchIndex - 1]? = some c ∧ hws c = false)
    (hInv : ∀ c : Char, i ≠ 0 → t[i - 1]? = some c → hws c = false) :
    didBeginLine t m = true ↔ specBegin t (tagStart m) = true := by
  have hdecomp : t.take (tagStart m) = t.take m.matchIndex ++ m.ws := by
    rw [h5]
    conv_lhs => rw [← List.take_append_drop m.matchIndex (t.take (tagStart m))]
    rw [List.take_take, Nat.min_eq_left h2]
  have hwsall : ∀ x ∈ m.ws, hws x = true := by
    intro x hx
    rw [h5] at hx
    obtain ⟨j, hj, hx2⟩ := List.mem_iff_getElem.mp hx
    have hlen : ((t.take (tagStart m)).drop m.matchIndex).length
        = tagStart m - m.matchIndex := by
      simp only [List.length_drop, List.length_take]
      omega
    have hget : ((t.take (tagStart m)).drop m.matchIndex)[j]? = t[m.matchIndex + j]? := by
      rw [List.getElem?_drop, List.getElem?_take]
      have : m.matchIndex + j < tagStart m := by omega
      simp [this]
    refine h6 (m.matchIndex + j) x (by omega) (by omega) ?_
    rw [← hget, List.getElem?_eq_getElem hj, hx2]
  have hwsrev : ∀ x ∈ m.ws.reverse, (!isEOL x) = true := by
    intro x hx
    rw [List.mem_reverse] at hx
    simp [hws_not_eol x (hwsall x hx)]
  have htw : (t.take (tagStart m)).reverse.takeWhile (fun c => !isEOL c)
      = m.ws.reverse ++ ((t.take m.matchIndex).reverse.takeWhile (fun c => !isEOL c)) := by
    rw [hdecomp, List.reverse_append, takeWhile_append_all _ _ _ hwsrev]
  have hwsrevall : m.ws.reverse.all hws = true := by
    rw [List.all_eq_true]
    intro x hx
    exact hwsall x (List.mem_reverse.mp hx)
  rcases Nat.eq_zero_or_pos m.matchIndex with hmi0 | hmi1
  · have hdb : didBeginLine t m = true := by
      simp [didBeginLine, hmi0]
    have hsb : specBegin t (tagStart m) = true := by
      unfold specBegin
      rw [htw, hmi0]
      simpa using hwsrevall
    simp [hdb, hsb]
  · have hmi1' : m.matchIndex - 1 < t.length := by omega
    obtain ⟨c0, hc0⟩ : ∃ c0, t[m.matchIndex - 1]? = some c0 := by
      rcases hg : t[m.matchIndex - 1]? with _ | c
      · rw [List.getElem?_eq_none_iff] at hg
        omega
      · exact ⟨c, rfl⟩
    have htake : t.take m.matchIndex = t.take (m.matchIndex - 1) ++ [c0] := by
      conv_lhs => rw [show m.matchIndex = (m.matchIndex - 1) + 1 from by omega]
      rw [List.take_succ, hc0]
      rfl
    have hdb : didBeginLine t m = isEOL c0 := by
      unfold didBeginLine
      rw [charAt_eq, hc0]
      have : (m.matchIndex == 0) = false := by
        simp only [beq_eq_false_iff_ne, ne_eq]
        omega
      rw [this]
      simp
    have hsw : (t.take (tagStart m)).reverse.takeWhile (fun c => !isEOL c)
        = m.ws.reverse
          ++ ((c0 :: (t.take (m.matchIndex - 1)).reverse).takeWhile (fun c => !isEOL c)) := by
      rw [htw, htake, List.reverse_append]
      rfl
    by_cases heol : isEOL c0 = true
    · have hsb : specBegin t (tagStart m) = true := by
        unfold specBegin
        rw [hsw, List.takeWhile_cons]
        simp only [heol, Bool.not_true, Bool.false_eq_true, if_false]
        simpa using hwsrevall
      simp [hdb, heol, hsb]
    · have heol2 : isEOL c0 = false := by simpa using heol
      have hc0hws : hws c0 = false := by
        rcases h7 with h7a | ⟨c1, hc1, hc1f⟩
        · refine hInv c0 (by omega) ?_
          rw [← h7a]
          exact hc0
        · rw [hc1] at hc0
          have : c1 = c0 := by
            simpa using hc0
          rw [← this]
          exact hc1f
      have hsb : specBegin t (tagStart m) = false := by
        unfold specBegin
        rw [hsw, List.takeWhile_cons]
        simp only [heol2, Bool.not_false, if_true]
        rw [List.all_append]
        simp [hc0hws]
      simp [hdb, heol2, hsb]

/-- the standalone flag is the conjunction the code tests. -/
theorem stripAdjust_flag (t : List Char) (m : TagMatch) :
    (stripAdjust t m).2
      = (didBeginLine t m && didEndLine t m && !isInterpolating m.tag) := by
  unfold stripAdjust
  split
  · next hcond => simp only [hcond]
  · next hcond =>
      have hfalse : (didBeginLine t m && didEndLine t m && !isInterpolating m.tag) = false :=
        Bool.eq_false_iff.mpr hcond
      split <;> simp only [hfalse]

/-- in the standalone branch the end index advances by exactly the line
terminator length. -/
theorem strip_end_eq (t : List Char) (m : TagMatch)
    (hcond : (didBeginLine t m && didEndLine t m && !isInterpolating m.tag) = true) :
    (stripAdjust t m).1.endIndex = m.endIndex + eolConsume t m.endIndex := by
  unfold stripAdjust
  rw [if_pos hcond]
  rcases hr : charAt t m.endIndex with _ | cr
  · simp [hr, eolConsume]
  · by_cases hcr : cr = '\r'
    · subst hcr
      rcases hn : charAt t (m.endIndex + 1) with _ | cn
      · simp [hr, hn, eolConsume]
      · by_cases hcn : cn = '\n'
        · subst hcn
          simp [hr, hn, eolConsume]
        · simp [hr, hn, hcn, eolConsume]
    · by_cases hcn2 : cr = '\n'
      · subst hcn2
        simp [hr, hcr, eolConsume]
      · simp [hr, hcr, hcn2, eolConsume]

/-- C2 (amended): a tag is stripped as standalone exactly when it is not an
interpolation, only horizontal whitespace stands between the preceding newline
(or template start) and the tag, and the match ends immediately at a line end or
the end of the template (trailing horizontal whitespace after the tag defeats
the standalone treatment; see the counterexample). A stripped tag contributes
only its content to the tree (the captured whitespace is consumed) and scanning
resumes after one full line terminator; an interpolation tag is never stripped
and its leading whitespace is appended to the tree. -/
theorem c2_theorem (otag ctag t : List Char) (i : Nat) (m : TagMatch)
    (hot : otag ≠ [])
    (hInv : ∀ c : Char, i ≠ 0 → charAt t (i-1) = some c → hws c = false)
    (hft : findTag otag ctag t i = some m) :
    ((stripAdjust t m).2 = true
      ↔ (isInterpolating m.tag = false ∧ specBegin t (tagStart m) = true
          ∧ didEndLine t m = true))
    ∧ ((stripAdjust t m).2 = true →
        stepAppends t m = [Segment.text m.content]
        ∧ (stripAdjust t m).1.endIndex = m.endIndex + eolConsume t m.endIndex)
    ∧ (isInterpolating m.tag = true →
        (stripAdjust t m).2 = false
        ∧ stepAppends t m = Segment.text m.content ::
            (if m.ws = [] then [] else [Segment.text m.ws])) := by
  obtain ⟨hA, hB, hC, hD, hE, hF⟩ := findTag_ws otag ctag t i m hot hft
  have hInv2 : ∀ c : Char, i ≠ 0 → t[i-1]? = some c → hws c = false := by
    intro c hne hg
    exact hInv c hne (by rw [charAt_eq]; exact hg)
  have hiff := didBegin_iff t i m hA hB hC hD hE hF hInv2
  have hflag := stripAdjust_flag t m
  refine ⟨?_, ?_, ?_⟩
  · rw [hflag]
    constructor
    · intro hq
      simp only [Bool.and_eq_true, Bool.not_eq_true'] at hq
      exact ⟨hq.2, hiff.mp hq.1.1, hq.1.2⟩
    · rintro ⟨hi1, hi2, hi3⟩
      simp only [Bool.and_eq_true, Bool.not_eq_true']
      exact ⟨⟨hiff.mpr hi2, hi3⟩, hi1⟩
  · intro hsa
    refine ⟨?_, ?_⟩
    · unfold stepAppends
      rw [hsa]
      simp
    · exact strip_end_eq t m (by rw [← hflag]; exact hsa)
  · intro hint
    have hflagf : (stripAdjust t m).2 = false := by
      rw [hflag, hint]
      simp
    refine ⟨hflagf, ?_⟩
    unfold stepAppends
    rw [hflagf]
    by_cases hw : m.ws = []
    · simp [hw]
    · simp [hw]

def c2wT : List Char := "a\n  ".data ++ lbb ++ ['!', 'c'] ++ rbb ++ ['\n', 'B']

def c2wM : TagMatch :=
  { content := ['a', '\n'], ws := [' ', ' '], tag := ['!'], name := ['c'],
    matchIndex := 2, endIndex := 10 }

/-- C2 witness at a concrete input: a comment tag preceded by one line of text
and an indented line, ending right before a newline, is standalone; it
contributes only the content and the scan resumes past the newline. -/
theorem c2_witness :
    (stripAdjust c2wT c2wM).2 = true
    ∧ stepAppends c2wT c2wM = [Segment.text ['a', '\n']]
    ∧ (stripAdjust c2wT c2wM).1.endIndex = 10 + eolConsume c2wT 10 :=
  have happ := c2_theorem lbb rbb c2wT 0 c2wM (by decide)
    (fun _ hne _ => absurd rfl hne) rfl
  have hsa : (stripAdjust c2wT c2wM).2 = true :=
    happ.1.mpr ⟨by decide, by decide, by decide⟩
  ⟨hsa, (happ.2.1 hsa).1, (happ.2.1 hsa).2⟩

end Pystache